import Mathlib

/-!
Verification development for the keypoints dataset sample-preparation pipeline
(`base_keypoints.py`): the recursive transform composition protocol
(`BaseKeypointsDataset.apply_transforms`), per-instance filtering
(`BaseKeypointsDataset.filter_joints` / `compute_area`), batch collation
(`KeypointsCollate.__call__`) and the color-defaulting in `__init__`.
-/

set_option autoImplicit false

namespace BaseKeypoints

/-! ## Transform pipeline data model

A `PoseSample` abstracts the sample record flowing through `apply_transforms`:
`data` stands for all payload fields (image, mask, joints, ...) and
`additional_samples` is the transient slot populated before a combining
transform runs (`sample.additional_samples = additional_samples`).
-/

/-- A sample with its transient `additional_samples` slot. -/
inductive PoseSample (α : Type) : Type where
  | mk : α → List (PoseSample α) → PoseSample α

/-- The payload of a sample. -/
def PoseSample.data {α : Type} : PoseSample α → α
  | .mk d _ => d

/-- The `additional_samples` slot of a sample. -/
def PoseSample.adds {α : Type} : PoseSample α → List (PoseSample α)
  | .mk _ a => a

/-- Overwrite the `additional_samples` slot (models the in-place assignment
`sample.additional_samples = additional_samples`). -/
def PoseSample.withAdds {α : Type} : PoseSample α → List (PoseSample α) → PoseSample α
  | .mk d _, a => .mk d a

/-- A keypoint transform: `additional_samples_count` and the callable `t(sample)`. -/
structure KeypointTransform (α : Type) : Type where
  additional_samples_count : Nat
  apply : PoseSample α → PoseSample α

/-! ## `random.sample(range(n), k)`

The random stream is modelled by an oracle `g : Nat → Nat`.  `drawDistinct`
performs sampling without replacement from a pool (partial Fisher-Yates, as
CPython's `random.sample` does): each step removes the chosen element, so the
drawn elements are pairwise distinct.  `random_sample` adds CPython's guard
raising `ValueError("Sample larger than population or is negative")` when
`k > n`.
-/

/-- Draw `k` elements without replacement from `pool`, choices driven by `g`. -/
def drawDistinct (g : Nat → Nat) : Nat → List Nat → List Nat
  | 0, _ => []
  | _ + 1, [] => []
  | k + 1, x :: xs =>
    (x :: xs).getD (g k % (x :: xs).length) 0
      :: drawDistinct g k ((x :: xs).eraseIdx (g k % (x :: xs).length))

/-- `random.sample(range(n), k)` : error when the requested sample is larger
than the population, otherwise `k` distinct indices below `n`. -/
def random_sample (g : Nat → Nat) (n k : Nat) : Except String (List Nat) :=
  if k ≤ n then .ok (drawDistinct g k (List.range n))
  else .error "Sample larger than population or is negative"

/-! ## `apply_transforms`

Faithful translation of `BaseKeypointsDataset.apply_transforms`:

```python
def apply_transforms(self, sample, transforms):
    applied_transforms_so_far = []
    for t in transforms:
        if t.additional_samples_count == 0:
            sample = t(sample)
            applied_transforms_so_far.append(t)
        else:
            additional_samples = [self.load_sample(index)
                for index in random.sample(range(len(self)), t.additional_samples_count)]
            additional_samples = [self.apply_transforms(sample, applied_transforms_so_far)
                for sample in additional_samples]
            sample.additional_samples = additional_samples
            sample = t(sample)
    return sample
```

`applyLoop` is the loop with the accumulator `applied` made explicit;
`applyEach` is the inner list comprehension, each element processed by the
recursive `apply_transforms(sample, applied_transforms_so_far)` call.
-/

mutual

/-- The loop of `apply_transforms` over the remaining transforms `ts`, with
`applied` the `applied_transforms_so_far` accumulator. -/
def applyLoop {α : Type} (len : Nat) (load : Nat → PoseSample α) (g : Nat → Nat)
    (sample : PoseSample α) (applied ts : List (KeypointTransform α)) :
    Except String (PoseSample α) :=
  match ts with
  | [] => .ok sample
  | t :: rest =>
    if h : t.additional_samples_count = 0 then
      applyLoop len load g (t.apply sample) (applied ++ [t]) rest
    else
      match random_sample g len t.additional_samples_count with
      | .error e => .error e
      | .ok idxs =>
        match applyEach len load g (idxs.map load) applied with
        | .error e => .error e
        | .ok adds => applyLoop len load g (t.apply (sample.withAdds adds)) applied rest
termination_by
  (applied.countP (fun u => u.additional_samples_count != 0)
    + ts.countP (fun u => u.additional_samples_count != 0), ts.length, 0)
decreasing_by
  all_goals simp_wf
  all_goals simp [Prod.lex_def, List.countP_cons, List.countP_append, *]

/-- `[self.apply_transforms(sample, applied) for sample in samples]`. -/
def applyEach {α : Type} (len : Nat) (load : Nat → PoseSample α) (g : Nat → Nat)
    (samples : List (PoseSample α)) (applied : List (KeypointTransform α)) :
    Except String (List (PoseSample α)) :=
  match samples with
  | [] => .ok []
  | s :: ss =>
    match applyLoop len load g s [] applied with
    | .error e => .error e
    | .ok s2 =>
      match applyEach len load g ss applied with
      | .error e => .error e
      | .ok ss2 => .ok (s2 :: ss2)
termination_by
  (applied.countP (fun u => u.additional_samples_count != 0), applied.length + 1,
    samples.length)
decreasing_by
  all_goals simp_wf
  all_goals simp [Prod.lex_def, List.countP_cons, List.countP_append, *]

end

/-- `apply_transforms(sample, transforms)` with an empty initial accumulator. -/
def apply_transforms {α : Type} (len : Nat) (load : Nat → PoseSample α) (g : Nat → Nat)
    (sample : PoseSample α) (transforms : List (KeypointTransform α)) :
    Except String (PoseSample α) :=
  applyLoop len load g sample [] transforms

/-- Plain sequential application of a list of transforms to one sample
(`foldl`): the state a sample is in after running exactly these transforms. -/
def applyChain {α : Type} (ts : List (KeypointTransform α)) (s : PoseSample α) : PoseSample α :=
  ts.foldl (fun s t => t.apply s) s

theorem applyChain_nil {α : Type} (s : PoseSample α) : applyChain [] s = s := rfl

theorem applyChain_cons {α : Type} (t : KeypointTransform α) (ts : List (KeypointTransform α))
    (s : PoseSample α) : applyChain (t :: ts) s = applyChain ts (t.apply s) := rfl

theorem applyLoop_nil {α : Type} (len : Nat) (load : Nat → PoseSample α) (g : Nat → Nat)
    (s : PoseSample α) (applied : List (KeypointTransform α)) :
    applyLoop len load g s applied [] = .ok s := by
  rw [applyLoop]

theorem applyLoop_cons_zero {α : Type} (len : Nat) (load : Nat → PoseSample α) (g : Nat → Nat)
    (s : PoseSample α) (applied rest : List (KeypointTransform α)) (t : KeypointTransform α)
    (h : t.additional_samples_count = 0) :
    applyLoop len load g s applied (t :: rest)
      = applyLoop len load g (t.apply s) (applied ++ [t]) rest := by
  rw [applyLoop]
  simp [h]

theorem applyLoop_cons_err {α : Type} (len : Nat) (load : Nat → PoseSample α) (g : Nat → Nat)
    (s : PoseSample α) (applied rest : List (KeypointTransform α)) (t : KeypointTransform α)
    (e : String) (h : t.additional_samples_count ≠ 0)
    (hr : random_sample g len t.additional_samples_count = .error e) :
    applyLoop len load g s applied (t :: rest) = .error e := by
  rw [applyLoop]
  simp [h, hr]

theorem applyLoop_cons_pos {α : Type} (len : Nat) (load : Nat → PoseSample α) (g : Nat → Nat)
    (s : PoseSample α) (applied rest : List (KeypointTransform α)) (t : KeypointTransform α)
    (idxs : List Nat) (adds : List (PoseSample α)) (h : t.additional_samples_count ≠ 0)
    (hr : random_sample g len t.additional_samples_count = .ok idxs)
    (he : applyEach len load g (idxs.map load) applied = .ok adds) :
    applyLoop len load g s applied (t :: rest)
      = applyLoop len load g (t.apply (s.withAdds adds)) applied rest := by
  rw [applyLoop]
  simp [h, hr, he]

/-- Running a list of count-0 transforms is plain sequential application:
it never draws indices, never loads auxiliary samples, and never fails. -/
theorem applyLoop_all_zero {α : Type} (len : Nat) (load : Nat → PoseSample α) (g : Nat → Nat) :
    ∀ (ts : List (KeypointTransform α)), (∀ u ∈ ts, u.additional_samples_count = 0) →
      ∀ (s : PoseSample α) (applied : List (KeypointTransform α)),
        applyLoop len load g s applied ts = .ok (applyChain ts s) := by
  intro ts
  induction ts with
  | nil => intro _ s applied; rw [applyLoop_nil, applyChain_nil]
  | cons t rest ih =>
    intro h0 s applied
    have ht : t.additional_samples_count = 0 := h0 t (by simp)
    rw [applyLoop_cons_zero len load g s applied rest t ht, applyChain_cons,
      ih (fun u hu => h0 u (by simp [hu]))]

/-- The auxiliary-sample comprehension over a count-0 `applied` list succeeds
and applies exactly those transforms to each sample. -/
theorem applyEach_all_zero {α : Type} (len : Nat) (load : Nat → PoseSample α) (g : Nat → Nat)
    (applied : List (KeypointTransform α)) (hap : ∀ u ∈ applied, u.additional_samples_count = 0) :
    ∀ (samples : List (PoseSample α)),
      applyEach len load g samples applied = .ok (samples.map (applyChain applied)) := by
  intro samples
  induction samples with
  | nil => rw [applyEach]; simp
  | cons s ss ih =>
    rw [applyEach]
    simp only [applyLoop_all_zero len load g applied hap s [], ih, List.map_cons]

/-- Processing a count-0 prefix just chains the transforms onto the sample and
appends them to the accumulator. -/
theorem applyLoop_append_zero {α : Type} (len : Nat) (load : Nat → PoseSample α) (g : Nat → Nat) :
    ∀ (pre : List (KeypointTransform α)), (∀ u ∈ pre, u.additional_samples_count = 0) →
      ∀ (s : PoseSample α) (applied ts : List (KeypointTransform α)),
        applyLoop len load g s applied (pre ++ ts)
          = applyLoop len load g (applyChain pre s) (applied ++ pre) ts := by
  intro pre
  induction pre with
  | nil => intro _ s applied ts; simp [applyChain_nil]
  | cons t rest ih =>
    intro h0 s applied ts
    have ht : t.additional_samples_count = 0 := h0 t (by simp)
    rw [List.cons_append, applyLoop_cons_zero len load g s applied (rest ++ ts) t ht,
      applyChain_cons, ih (fun u hu => h0 u (by simp [hu]))]
    simp

/-- Processing an arbitrary prefix (whose auxiliary-sample requests are all
satisfiable) reaches some intermediate primary state `S`, with the accumulator
extended by exactly the count-0 members of the prefix, in order. -/
theorem applyLoop_prefix {α : Type} (len : Nat) (load : Nat → PoseSample α) (g : Nat → Nat) :
    ∀ (pre : List (KeypointTransform α)) (s : PoseSample α)
      (applied : List (KeypointTransform α)),
      (∀ u ∈ applied, u.additional_samples_count = 0) →
      (∀ u ∈ pre, u.additional_samples_count ≤ len) →
      ∃ S : PoseSample α, ∀ ts : List (KeypointTransform α),
        applyLoop len load g s applied (pre ++ ts)
          = applyLoop len load g S
              (applied ++ pre.filter (fun u => u.additional_samples_count == 0)) ts := by
  intro pre
  induction pre with
  | nil =>
    intro s applied _ _
    exact ⟨s, fun ts => by simp⟩
  | cons t rest ih =>
    intro s applied hap hcnt
    by_cases ht : t.additional_samples_count = 0
    · obtain ⟨S, hS⟩ := ih (t.apply s) (applied ++ [t])
        (by
          intro u hu
          rcases List.mem_append.mp hu with h1 | h2
          · exact hap u h1
          · simpa using (List.mem_singleton.mp h2) ▸ ht)
        (fun u hu => hcnt u (by simp [hu]))
      refine ⟨S, fun ts => ?_⟩
      rw [List.cons_append, applyLoop_cons_zero len load g s applied (rest ++ ts) t ht, hS ts]
      simp [List.filter_cons, ht]
    · have hk : t.additional_samples_count ≤ len := hcnt t (by simp)
      have hr : random_sample g len t.additional_samples_count
          = .ok (drawDistinct g t.additional_samples_count (List.range len)) := by
        simp [random_sample, hk]
      have he := applyEach_all_zero len load g applied hap
        ((drawDistinct g t.additional_samples_count (List.range len)).map load)
      obtain ⟨S, hS⟩ := ih
        (t.apply (s.withAdds
          (((drawDistinct g t.additional_samples_count (List.range len)).map load).map
            (applyChain applied))))
        applied hap (fun u hu => hcnt u (by simp [hu]))
      refine ⟨S, fun ts => ?_⟩
      rw [List.cons_append,
        applyLoop_cons_pos len load g s applied (rest ++ ts) t _ _ ht hr he, hS ts]
      simp [List.filter_cons, ht]

/-- Progress: when every transform's auxiliary-sample request fits in the
dataset, the whole pipeline runs to completion without error. -/
theorem applyLoop_ok {α : Type} (len : Nat) (load : Nat → PoseSample α) (g : Nat → Nat) :
    ∀ (ts : List (KeypointTransform α)) (s : PoseSample α)
      (applied : List (KeypointTransform α)),
      (∀ u ∈ ts, u.additional_samples_count ≤ len) →
      (∀ u ∈ applied, u.additional_samples_count = 0) →
      ∃ out, applyLoop len load g s applied ts = .ok out := by
  intro ts
  induction ts with
  | nil => intro s applied _ _; exact ⟨s, applyLoop_nil len load g s applied⟩
  | cons t rest ih =>
    intro s applied hcnt hap
    by_cases ht : t.additional_samples_count = 0
    · rw [applyLoop_cons_zero len load g s applied rest t ht]
      exact ih (t.apply s) (applied ++ [t])
        (fun u hu => hcnt u (by simp [hu]))
        (by
          intro u hu
          rcases List.mem_append.mp hu with h1 | h2
          · exact hap u h1
          · simpa using (List.mem_singleton.mp h2) ▸ ht)
    · have hk : t.additional_samples_count ≤ len := hcnt t (by simp)
      have hr : random_sample g len t.additional_samples_count
          = .ok (drawDistinct g t.additional_samples_count (List.range len)) := by
        simp [random_sample, hk]
      have he := applyEach_all_zero len load g applied hap
        ((drawDistinct g t.additional_samples_count (List.range len)).map load)
      rw [applyLoop_cons_pos len load g s applied rest t _ _ ht hr he]
      exact ih _ applied (fun u hu => hcnt u (by simp [hu])) hap

/-! ## Distinctness of drawn indices -/

theorem getD_cons_eraseIdx_perm :
    ∀ (l : List Nat) (i : Nat), i < l.length → List.Perm (l.getD i 0 :: l.eraseIdx i) l := by
  intro l
  induction l with
  | nil => intro i hi; simp at hi
  | cons x xs ih =>
    intro i hi
    cases i with
    | zero => simp
    | succ j =>
      have hj : j < xs.length := by simpa using hi
      have step : List.Perm (xs.getD j 0 :: x :: xs.eraseIdx j)
          (x :: xs.getD j 0 :: xs.eraseIdx j) :=
        List.Perm.swap x (xs.getD j 0) (xs.eraseIdx j)
      simpa using step.trans (List.Perm.cons x (ih j hj))

theorem drawDistinct_step (g : Nat → Nat) (k : Nat) (pool : List Nat) (hne : pool ≠ []) :
    drawDistinct g (k + 1) pool
      = pool.getD (g k % pool.length) 0
        :: drawDistinct g k (pool.eraseIdx (g k % pool.length)) := by
  cases pool with
  | nil => exact absurd rfl hne
  | cons x xs => rfl

theorem drawDistinct_spec (g : Nat → Nat) :
    ∀ (k : Nat) (pool : List Nat), k ≤ pool.length → pool.Nodup →
      (drawDistinct g k pool).length = k ∧ (drawDistinct g k pool).Nodup
        ∧ ∀ x ∈ drawDistinct g k pool, x ∈ pool := by
  intro k
  induction k with
  | zero => intro pool _ _; simp [drawDistinct]
  | succ k ih =>
    intro pool hk hnd
    have hne : pool ≠ [] := by
      intro h
      rw [h] at hk
      simp at hk
    have hplen : 0 < pool.length := List.length_pos.mpr hne
    have hi : g k % pool.length < pool.length := Nat.mod_lt _ hplen
    have hperm := getD_cons_eraseIdx_perm pool (g k % pool.length) hi
    have hnd2 : (pool.getD (g k % pool.length) 0 :: pool.eraseIdx (g k % pool.length)).Nodup :=
      hperm.symm.nodup hnd
    have hlen2 : (pool.eraseIdx (g k % pool.length)).length = pool.length - 1 := by
      have h := hperm.length_eq
      simp at h
      omega
    obtain ⟨ihlen, ihnd, ihmem⟩ := ih (pool.eraseIdx (g k % pool.length))
      (by omega) (List.nodup_cons.mp hnd2).2
    rw [drawDistinct_step g k pool hne]
    refine ⟨by simp [ihlen], ?_, ?_⟩
    · exact List.nodup_cons.mpr
        ⟨fun hmem => (List.nodup_cons.mp hnd2).1 (ihmem _ hmem), ihnd⟩
    · intro y hy
      rcases List.mem_cons.mp hy with h1 | h2
      · exact h1 ▸ hperm.subset (List.mem_cons_self _ _)
      · exact hperm.subset (List.mem_cons_of_mem _ (ihmem y h2))

/-- `random.sample` outcome: failure exactly when `k > n`; on success, `k`
pairwise distinct indices all below `n`. -/
theorem random_sample_spec (g : Nat → Nat) (n k : Nat) :
    (n < k → random_sample g n k = .error "Sample larger than population or is negative")
    ∧ (k ≤ n → ∃ l, random_sample g n k = .ok l
        ∧ l.length = k ∧ l.Nodup ∧ ∀ i ∈ l, i < n) := by
  constructor
  · intro h
    simp [random_sample, Nat.not_le.mpr h]
  · intro h
    obtain ⟨h1, h2, h3⟩ := drawDistinct_spec g k (List.range n)
      (by simpa using h) (List.nodup_range n)
    exact ⟨drawDistinct g k (List.range n), by simp [random_sample, h], h1, h2,
      fun i hi => List.mem_range.mp (h3 i hi)⟩

/-! ## Instance filtering (`filter_joints`, `compute_area`)

Coordinates, visibilities, areas and the `min_instance_area` threshold are
modelled as exact rationals (the float operations involved — comparisons,
max/min, one subtraction and one product — are order-theoretic, which ℚ
captures).  The image enters `filter_joints` only through its shape, read as
`_, rows, cols = image.shape` for a tensor (channel-first) and
`rows, cols, _ = image.shape` otherwise (channel-last).
-/

/-- One keypoint: x, y and visibility (the last entry of the innermost axis). -/
structure Joint : Type where
  x : ℚ
  y : ℚ
  v : ℚ
deriving DecidableEq, Repr

/-- The only information `filter_joints` reads off the image: its layout flag
(`torch.is_tensor`) and its three shape entries. -/
structure ImageShape : Type where
  isTensor : Bool
  dim0 : Nat
  dim1 : Nat
  dim2 : Nat
deriving DecidableEq, Repr

/-- `(rows, cols)` of the frame: `_, rows, cols` when the image is a tensor,
`rows, cols, _` otherwise. -/
def frameDims (img : ImageShape) : Nat × Nat :=
  if img.isTensor then (img.dim1, img.dim2) else (img.dim0, img.dim1)

/-- The sample record as `filter_joints` sees it: joints is the
[instances × joints × 3] array, `bboxes` and `areas` optional. -/
structure KSample : Type where
  image : ImageShape
  joints : List (List Joint)
  is_crowd : List Bool
  bboxes : Option (List (ℚ × ℚ × ℚ × ℚ))
  areas : Option (List ℚ)
deriving DecidableEq, Repr

/-- `(joints[:,:,0] < 0) | (joints[:,:,1] < 0) | (joints[:,:,0] >= cols) |
(joints[:,:,1] >= rows)` for one joint. -/
def outsideImage (rows cols : Nat) (j : Joint) : Bool :=
  decide (j.x < 0) || decide (j.y < 0) || decide ((cols : ℚ) ≤ j.x)
    || decide ((rows : ℚ) ≤ j.y)

/-- `sample.joints[outside_image_mask, 2] = 0` applied to one joint. -/
def markJoint (rows cols : Nat) (j : Joint) : Joint :=
  if outsideImage rows cols j then { j with v := 0 } else j

/-- Out-of-image visibility update over one instance. -/
def markInstance (rows cols : Nat) (inst : List Joint) : List Joint :=
  inst.map (markJoint rows cols)

/-- Out-of-image visibility update over the whole joints array. -/
def markJoints (rows cols : Nat) (joints : List (List Joint)) : List (List Joint) :=
  joints.map (markInstance rows cols)

/-- `np.max` over a (per-instance) coordinate row. -/
def listMaxQ : List ℚ → ℚ
  | [] => 0
  | x :: xs => xs.foldl max x

/-- `np.min` over a (per-instance) coordinate row. -/
def listMinQ : List ℚ → ℚ
  | [] => 0
  | x :: xs => xs.foldl min x

/-- `compute_area` for one instance:
`(max x - min x) * (max y - min y)` over all its joints. -/
def compute_area (inst : List Joint) : ℚ :=
  (listMaxQ (inst.map Joint.x) - listMinQ (inst.map Joint.x))
    * (listMaxQ (inst.map Joint.y) - listMinQ (inst.map Joint.y))

/-- `any(joints[i, :, 2] > 0)` via `np.sum(visible_joints_mask, axis=-1) > 0`. -/
def hasVisibleJoint (inst : List Joint) : Bool :=
  decide (0 < inst.countP (fun j => decide (0 < j.v)))

/-- Boolean-mask indexing `arr[keep_mask]`. -/
def applyMask {β : Type} : List Bool → List β → List β
  | b :: ms, x :: xs => if b then x :: applyMask ms xs else applyMask ms xs
  | _, _ => []

/-- The visibility-corrected joints array (`sample.joints` after the in-place
out-of-image update). -/
def markedJoints (s : KSample) : List (List Joint) :=
  markJoints (frameDims s.image).1 (frameDims s.image).2 s.joints

/-- Per-instance areas used by the area filter: the sample's `areas` field
as-is when present, else `compute_area(sample.joints)` (on the already
visibility-corrected joints, whose coordinates are untouched). -/
def instanceAreas (s : KSample) : List ℚ :=
  match s.areas with
  | none => (markedJoints s).map compute_area
  | some as => as

/-- The `keep_mask` of `filter_joints`: visible-joint presence, AND-ed with
the strict area test when `min_instance_area > 0`. -/
def filterKeep (min_instance_area : ℚ) (s : KSample) : List Bool :=
  if 0 < min_instance_area then
    List.zipWith and ((markedJoints s).map hasVisibleJoint)
      ((instanceAreas s).map (fun a => decide (min_instance_area < a)))
  else (markedJoints s).map hasVisibleJoint

theorem filterKeep_pos (t : ℚ) (s : KSample) (ht : 0 < t) :
    filterKeep t s
      = List.zipWith and ((markedJoints s).map hasVisibleJoint)
          ((instanceAreas s).map (fun a => decide (t < a))) := by
  unfold filterKeep
  rw [if_pos ht]

theorem filterKeep_nonpos (t : ℚ) (s : KSample) (ht : ¬ 0 < t) :
    filterKeep t s = (markedJoints s).map hasVisibleJoint := by
  unfold filterKeep
  rw [if_neg ht]

/-- `BaseKeypointsDataset.filter_joints`: out-of-image visibility correction,
presence/area keep mask, and consistent pruning of all per-instance arrays. -/
def filter_joints (min_instance_area : ℚ) (s : KSample) : KSample :=
  { image := s.image
    joints := applyMask (filterKeep min_instance_area s) (markedJoints s)
    is_crowd := applyMask (filterKeep min_instance_area s) s.is_crowd
    bboxes := s.bboxes.map (applyMask (filterKeep min_instance_area s))
    areas := s.areas.map (applyMask (filterKeep min_instance_area s)) }

/-! ## Boolean-mask indexing lemmas -/

theorem applyMask_nil_mask {β : Type} (l : List β) : applyMask [] l = [] := by
  cases l <;> rfl

theorem applyMask_nil {β : Type} (m : List Bool) : applyMask m ([] : List β) = [] := by
  cases m <;> rfl

theorem applyMask_cons {β : Type} (b : Bool) (ms : List Bool) (x : β) (xs : List β) :
    applyMask (b :: ms) (x :: xs)
      = if b then x :: applyMask ms xs else applyMask ms xs := rfl

/-- Indexing with a mask computed pointwise from the list itself is `filter`. -/
theorem applyMask_map_self {β : Type} (p : β → Bool) :
    ∀ l : List β, applyMask (l.map p) l = l.filter p := by
  intro l
  induction l with
  | nil => rfl
  | cons x xs ih =>
    simp only [List.map_cons, applyMask_cons, List.filter_cons, ih]

theorem applyMask_map {β γ : Type} (f : β → γ) :
    ∀ (m : List Bool) (l : List β), applyMask m (l.map f) = (applyMask m l).map f := by
  intro m
  induction m with
  | nil => intro l; simp [applyMask_nil_mask]
  | cons b ms ih =>
    intro l
    cases l with
    | nil => simp [applyMask_nil]
    | cons x xs =>
      simp only [List.map_cons, applyMask_cons, ih]
      by_cases h : b <;> simp [h]

theorem applyMask_length_congr {β γ : Type} :
    ∀ (m : List Bool) (l1 : List β) (l2 : List γ), l1.length = l2.length →
      (applyMask m l1).length = (applyMask m l2).length := by
  intro m
  induction m with
  | nil => intro l1 l2 _; simp [applyMask_nil_mask]
  | cons b ms ih =>
    intro l1 l2 h
    cases l1 with
    | nil =>
      cases l2 with
      | nil => rfl
      | cons y ys => simp at h
    | cons x xs =>
      cases l2 with
      | nil => simp at h
      | cons y ys =>
        simp only [List.length_cons, Nat.succ.injEq] at h
        simp only [applyMask_cons]
        by_cases hb : b <;> simp [hb, ih xs ys h]

theorem applyMask_eq_nil_congr {β γ : Type} :
    ∀ (m : List Bool) (l1 : List β) (l2 : List γ), l1.length = l2.length →
      applyMask m l1 = [] → applyMask m l2 = [] := by
  intro m l1 l2 h h1
  have := applyMask_length_congr m l1 l2 h
  rw [h1] at this
  simpa using this.symm

theorem applyMask_all_true {β : Type} :
    ∀ (m : List Bool) (l : List β), (∀ b ∈ m, b = true) → l.length ≤ m.length →
      applyMask m l = l := by
  intro m
  induction m with
  | nil =>
    intro l _ hl
    cases l with
    | nil => rfl
    | cons x xs => simp at hl
  | cons b ms ih =>
    intro l hm hl
    cases l with
    | nil => exact applyMask_nil _
    | cons x xs =>
      have hb : b = true := hm b (by simp)
      simp only [applyMask_cons, hb, if_true]
      rw [ih xs (fun c hc => hm c (by simp [hc])) (by simpa using hl)]

theorem mem_applyMask {β : Type} :
    ∀ (m : List Bool) (l : List β) (x : β), x ∈ applyMask m l → x ∈ l := by
  intro m
  induction m with
  | nil => intro l x hx; rw [applyMask_nil_mask] at hx; simp at hx
  | cons b ms ih =>
    intro l x hx
    cases l with
    | nil => rw [applyMask_nil] at hx; simp at hx
    | cons y ys =>
      rw [applyMask_cons] at hx
      by_cases hb : b
      · rw [if_pos hb] at hx
        rcases List.mem_cons.mp hx with h1 | h2
        · simp [h1]
        · exact List.mem_cons_of_mem _ (ih ys x h2)
      · rw [if_neg hb] at hx
        exact List.mem_cons_of_mem _ (ih ys x hx)

/-- Every element surviving a mask whose i-th entry is `p l[i] && ...`
satisfies `p`. -/
theorem mem_applyMask_zipWith_and {β : Type} (p : β → Bool) :
    ∀ (l : List β) (am : List Bool) (x : β),
      x ∈ applyMask (List.zipWith and (l.map p) am) l → p x = true := by
  intro l
  induction l with
  | nil => intro am x hx; rw [applyMask_nil] at hx; simp at hx
  | cons y ys ih =>
    intro am x hx
    cases am with
    | nil => simp [applyMask_nil_mask] at hx
    | cons b bs =>
      simp only [List.map_cons, List.zipWith_cons_cons, applyMask_cons] at hx
      by_cases hb : (and (p y) b) = true
      · rw [if_pos hb] at hx
        rcases List.mem_cons.mp hx with h1 | h2
        · have hpy : p y = true := by
            have h3 := hb
            simp at h3
            exact h3.1
          rw [h1]
          exact hpy
        · exact ih bs x h2
      · rw [if_neg hb] at hx
        exact ih bs x hx

/-- Fusing `zipWith and` of two masks derived pointwise from the same list. -/
theorem zipWith_and_map_map {β γ : Type} (p : β → Bool) (q : γ → Bool) (f : β → γ) :
    ∀ l : List β,
      List.zipWith and (l.map p) ((l.map f).map q) = l.map (fun x => p x && q (f x)) := by
  intro l
  induction l with
  | nil => rfl
  | cons x xs ih => simp only [List.map_cons, List.zipWith_cons_cons, ih]

/-- Masking with a `presence && area` mask is filtering the zipped lists. -/
theorem applyMask_zipWith_and_eq_filter {β γ : Type} (p : β → Bool) (q : γ → Bool) :
    ∀ (l1 : List β) (l2 : List γ), l1.length = l2.length →
      applyMask (List.zipWith and (l1.map p) (l2.map q)) l1
        = ((l1.zip l2).filter (fun r => p r.1 && q r.2)).map Prod.fst := by
  intro l1
  induction l1 with
  | nil => intro l2 _; simp [applyMask_nil]
  | cons x xs ih =>
    intro l2 h
    cases l2 with
    | nil => simp at h
    | cons y ys =>
      simp only [List.length_cons, Nat.succ.injEq] at h
      rw [List.map_cons, List.map_cons, List.zipWith_cons_cons, applyMask_cons, ih ys h]
      by_cases hb : (p x && q y) = true
      · simp [hb]
      · have hb2 : (p x && q y) = false := by simpa using hb
        simp [hb2]

/-- Re-deriving both masks after a joint mask application yields all-true. -/
theorem zipWith_and_applyMask_true {β γ : Type} (p : β → Bool) (q : γ → Bool) :
    ∀ (l1 : List β) (l2 : List γ), l1.length = l2.length →
      List.zipWith and
          ((applyMask (List.zipWith and (l1.map p) (l2.map q)) l1).map p)
          ((applyMask (List.zipWith and (l1.map p) (l2.map q)) l2).map q)
        = List.replicate (applyMask (List.zipWith and (l1.map p) (l2.map q)) l1).length true := by
  intro l1
  induction l1 with
  | nil => intro l2 _; simp [applyMask_nil, applyMask_nil_mask]
  | cons x xs ih =>
    intro l2 h
    cases l2 with
    | nil => simp at h
    | cons y ys =>
      simp only [List.length_cons, Nat.succ.injEq] at h
      simp only [List.map_cons, List.zipWith_cons_cons, applyMask_cons]
      by_cases hb : (and (p x) (q y)) = true
      · rw [if_pos hb, if_pos hb, List.map_cons, List.map_cons, List.zipWith_cons_cons,
          ih ys h, List.length_cons, List.replicate_succ, hb]
      · rw [if_neg hb, if_neg hb]
        exact ih ys h

/-- A list all of whose elements satisfy `p` maps under `p` to all-true. -/
theorem map_eq_replicate_true {β : Type} (p : β → Bool) :
    ∀ l : List β, (∀ x ∈ l, p x = true) → l.map p = List.replicate l.length true := by
  intro l
  induction l with
  | nil => intro _; rfl
  | cons x xs ih =>
    intro h
    simp only [List.map_cons, List.length_cons, List.replicate_succ, h x (by simp),
      ih (fun y hy => h y (by simp [hy]))]

theorem applyMask_replicate_true {β : Type} (n : Nat) (l : List β) (h : l.length ≤ n) :
    applyMask (List.replicate n true) l = l :=
  applyMask_all_true _ _ (fun _ hb => List.eq_of_mem_replicate hb) (by simpa using h)

/-! ## Out-of-image marking lemmas -/

theorem markJoint_coords (rows cols : Nat) (j : Joint) :
    (markJoint rows cols j).x = j.x ∧ (markJoint rows cols j).y = j.y := by
  unfold markJoint
  split <;> exact ⟨rfl, rfl⟩

theorem outsideImage_markJoint (rows cols : Nat) (j : Joint) :
    outsideImage rows cols (markJoint rows cols j) = outsideImage rows cols j := by
  unfold markJoint
  split <;> rfl

theorem markJoint_idem (rows cols : Nat) (j : Joint) :
    markJoint rows cols (markJoint rows cols j) = markJoint rows cols j := by
  by_cases h : outsideImage rows cols j = true
  · have h1 : markJoint rows cols j = { j with v := 0 } := by simp [markJoint, h]
    have h2 : outsideImage rows cols ({ j with v := 0 } : Joint) = true := by
      simpa [outsideImage] using h
    rw [h1]
    simp [markJoint, h2]
  · have h1 : markJoint rows cols j = j := by simp [markJoint, h]
    rw [h1, h1]

theorem markInstance_idem (rows cols : Nat) (inst : List Joint) :
    markInstance rows cols (markInstance rows cols inst) = markInstance rows cols inst := by
  unfold markInstance
  rw [List.map_map]
  exact List.map_congr_left (fun j _ => markJoint_idem rows cols j)

theorem compute_area_markInstance (rows cols : Nat) (inst : List Joint) :
    compute_area (markInstance rows cols inst) = compute_area inst := by
  have hx : List.map (Joint.x ∘ markJoint rows cols) inst = List.map Joint.x inst :=
    List.map_congr_left (fun j _ => (markJoint_coords rows cols j).1)
  have hy : List.map (Joint.y ∘ markJoint rows cols) inst = List.map Joint.y inst :=
    List.map_congr_left (fun j _ => (markJoint_coords rows cols j).2)
  unfold compute_area markInstance
  rw [List.map_map, List.map_map, hx, hy]

/-- A marked joint counts as present exactly when it was labeled present and
lies inside the frame. -/
theorem markJoint_visible (rows cols : Nat) (j : Joint) :
    decide (0 < (markJoint rows cols j).v)
      = (decide (0 < j.v) && !(outsideImage rows cols j)) := by
  unfold markJoint
  by_cases h : outsideImage rows cols j = true
  · simp [h]
  · simp [h]

theorem hasVisibleJoint_markInstance (rows cols : Nat) (inst : List Joint) :
    hasVisibleJoint (markInstance rows cols inst)
      = inst.any (fun j => decide (0 < j.v) && !(outsideImage rows cols j)) := by
  unfold hasVisibleJoint markInstance
  rw [List.countP_map]
  rw [Bool.eq_iff_iff]
  simp only [decide_eq_true_eq, List.countP_pos_iff, List.any_eq_true, Function.comp]
  constructor
  · rintro ⟨j, hj, hv⟩
    refine ⟨j, hj, ?_⟩
    rw [← markJoint_visible rows cols j]
    exact decide_eq_true hv
  · rintro ⟨j, hj, hv⟩
    refine ⟨j, hj, ?_⟩
    rw [← markJoint_visible rows cols j] at hv
    exact of_decide_eq_true hv

/-! ## Projections of `filter_joints` -/

theorem filter_joints_image (t : ℚ) (s : KSample) : (filter_joints t s).image = s.image := rfl

theorem filter_joints_joints (t : ℚ) (s : KSample) :
    (filter_joints t s).joints = applyMask (filterKeep t s) (markedJoints s) := rfl

theorem filter_joints_is_crowd (t : ℚ) (s : KSample) :
    (filter_joints t s).is_crowd = applyMask (filterKeep t s) s.is_crowd := rfl

theorem filter_joints_bboxes (t : ℚ) (s : KSample) :
    (filter_joints t s).bboxes = s.bboxes.map (applyMask (filterKeep t s)) := rfl

theorem filter_joints_areas (t : ℚ) (s : KSample) :
    (filter_joints t s).areas = s.areas.map (applyMask (filterKeep t s)) := rfl

theorem ksample_eq {a b : KSample} (h1 : a.image = b.image) (h2 : a.joints = b.joints)
    (h3 : a.is_crowd = b.is_crowd) (h4 : a.bboxes = b.bboxes) (h5 : a.areas = b.areas) :
    a = b := by
  cases a
  cases b
  simp_all

theorem markInstance_map_idem (rows cols : Nat) (J : List (List Joint)) :
    (J.map (markInstance rows cols)).map (markInstance rows cols)
      = J.map (markInstance rows cols) := by
  rw [List.map_map]
  exact List.map_congr_left (fun inst _ => markInstance_idem rows cols inst)

/-- Re-marking the surviving joints changes nothing: the survivors are
already visibility-corrected. -/
theorem markedJoints_filter_joints (t : ℚ) (s : KSample) :
    markedJoints (filter_joints t s) = (filter_joints t s).joints := by
  unfold markedJoints
  rw [filter_joints_image, filter_joints_joints]
  unfold markedJoints markJoints
  rw [← applyMask_map, markInstance_map_idem]

theorem markedJoints_length (s : KSample) : (markedJoints s).length = s.joints.length := by
  unfold markedJoints markJoints
  simp

/-! ## Collation (`KeypointsCollate.__call__`)

`extras = {k: [dic[k] for dic in extras] for k in extras[0]}` transposes the
per-sample extras dicts; dicts are modelled as association lists, a missing
key (Python `KeyError`) and an empty batch (`extras[0]` raising `IndexError`)
as `none`.
-/

/-- `dic[k]` as an optional association-list lookup. -/
def dictGet {K V : Type} [DecidableEq K] (d : List (K × V)) (k : K) : Option V :=
  (d.find? (fun p => decide (p.1 = k))).map Prod.snd

/-- `[dic[k] for dic in extras]`: `none` when any dict lacks `k`. -/
def getEach {K V : Type} [DecidableEq K] (extras : List (List (K × V))) (k : K) :
    Option (List V) :=
  match extras with
  | [] => some []
  | d :: ds =>
    match dictGet d k, getEach ds k with
    | some v, some vs => some (v :: vs)
    | _, _ => none

/-- The dict comprehension `{k: [dic[k] for dic in extras] for k in ks}`. -/
def collate_keys {K V : Type} [DecidableEq K] (extras : List (List (K × V))) :
    List K → Option (List (K × List V))
  | [] => some []
  | k :: ks =>
    match getEach extras k, collate_keys extras ks with
    | some vs, some r => some ((k, vs) :: r)
    | _, _ => none

/-- `{k: [dic[k] for dic in extras] for k in extras[0]}`. -/
def collate_extras {K V : Type} [DecidableEq K] (extras : List (List (K × V))) :
    Option (List (K × List V)) :=
  match extras with
  | [] => none
  | d0 :: _ => collate_keys extras (d0.map Prod.fst)

/-- `KeypointsCollate.__call__`: split the batch into images, targets and
extras, transpose extras into a dict of per-sample value lists, and stack
images and targets with the external `default_collate` (abstracted as the
`stackImages`/`stackTargets` parameters, which may fail on shape mismatch). -/
def keypointsCollate {I T I2 T2 K V : Type} [DecidableEq K]
    (stackImages : List I → Option I2) (stackTargets : List T → Option T2)
    (batch : List (I × T × List (K × V))) : Option (I2 × T2 × List (K × List V)) :=
  match collate_extras (batch.map (fun b => b.2.2)) with
  | none => none
  | some e =>
    match stackImages (batch.map (fun b => b.1)),
        stackTargets (batch.map (fun b => b.2.1)) with
    | some im, some tg => some (im, tg, e)
    | _, _ => none

theorem dictGet_isSome_of_mem_keys {K V : Type} [DecidableEq K] (d : List (K × V)) (k : K)
    (h : k ∈ d.map Prod.fst) : (dictGet d k).isSome = true := by
  unfold dictGet
  rcases List.mem_map.mp h with ⟨p, hp, hk⟩
  have h2 : (d.find? (fun p => decide (p.1 = k))).isSome = true := by
    rw [List.find?_isSome]
    exact ⟨p, hp, by simp [hk]⟩
  cases hf : d.find? (fun p => decide (p.1 = k)) with
  | none => rw [hf] at h2; simp at h2
  | some q => simp

theorem dictGet_eq_none_iff {K V : Type} [DecidableEq K] (d : List (K × V)) (k : K) :
    dictGet d k = none ↔ k ∉ d.map Prod.fst := by
  unfold dictGet
  rw [Option.map_eq_none', List.find?_eq_none]
  constructor
  · intro h hk
    rcases List.mem_map.mp hk with ⟨p, hp, hpk⟩
    have h2 := h p hp
    simp only [decide_eq_true_eq] at h2
    exact h2 hpk
  · intro h p hp
    simp only [decide_eq_true_eq]
    intro hpk
    exact h (List.mem_map.mpr ⟨p, hp, hpk⟩)

theorem dictGet_some_mem {K V : Type} [DecidableEq K] (d : List (K × V)) (k : K) (v : V)
    (h : dictGet d k = some v) : (k, v) ∈ d := by
  unfold dictGet at h
  cases hf : d.find? (fun p => decide (p.1 = k)) with
  | none => rw [hf] at h; simp at h
  | some p =>
    rw [hf] at h
    have hmem := List.mem_of_find?_eq_some hf
    have hpk : p.1 = k := by
      have := List.find?_some hf
      simpa using this
    have hpv : p.2 = v := by simpa using h
    rcases p with ⟨k1, v1⟩
    simp only at hpk hpv
    rw [← hpk, ← hpv]
    exact hmem

theorem getEach_forall₂ {K V : Type} [DecidableEq K] :
    ∀ (extras : List (List (K × V))) (k : K) (vs : List V),
      getEach extras k = some vs
        ↔ List.Forall₂ (fun d v => dictGet d k = some v) extras vs := by
  intro extras k
  induction extras with
  | nil =>
    intro vs
    constructor
    · intro h
      have hvs : vs = [] := by simpa [getEach] using h.symm
      rw [hvs]
      exact List.Forall₂.nil
    · intro h
      cases h
      rfl
  | cons d ds ih =>
    intro vs
    constructor
    · intro h
      unfold getEach at h
      cases hd : dictGet d k with
      | none => rw [hd] at h; simp at h
      | some v =>
        cases he : getEach ds k with
        | none => rw [hd, he] at h; simp at h
        | some ws =>
          rw [hd, he] at h
          have hvs : vs = v :: ws := by simpa using h.symm
          rw [hvs]
          exact List.Forall₂.cons hd ((ih ws).mp he)
    · intro h
      cases h with
      | cons hv htail =>
        unfold getEach
        rw [hv, (ih _).mpr htail]

theorem getEach_isSome {K V : Type} [DecidableEq K] :
    ∀ (extras : List (List (K × V))) (k : K),
      (∀ d ∈ extras, (dictGet d k).isSome = true) → ∃ vs, getEach extras k = some vs := by
  intro extras k
  induction extras with
  | nil => intro _; exact ⟨[], rfl⟩
  | cons d ds ih =>
    intro h
    obtain ⟨vs, hvs⟩ := ih (fun d2 h2 => h d2 (by simp [h2]))
    have hd := h d (by simp)
    cases hd2 : dictGet d k with
    | none => rw [hd2] at hd; simp at hd
    | some v =>
      refine ⟨v :: vs, ?_⟩
      unfold getEach
      rw [hd2, hvs]

theorem collate_keys_some {K V : Type} [DecidableEq K] (extras : List (List (K × V))) :
    ∀ ks : List K, (∀ k ∈ ks, ∃ vs, getEach extras k = some vs) →
      ∃ r, collate_keys extras ks = some r
        ∧ r.map Prod.fst = ks
        ∧ ∀ p ∈ r, getEach extras p.1 = some p.2 := by
  intro ks
  induction ks with
  | nil => intro _; exact ⟨[], rfl, rfl, by simp⟩
  | cons k ks ih =>
    intro h
    obtain ⟨vs, hvs⟩ := h k (by simp)
    obtain ⟨r, hr, hkeys, hmem⟩ := ih (fun k2 h2 => h k2 (by simp [h2]))
    refine ⟨(k, vs) :: r, ?_, by simp [hkeys], ?_⟩
    · unfold collate_keys
      rw [hvs, hr]
    · intro p hp
      rcases List.mem_cons.mp hp with h1 | h2
      · rw [h1]
        exact hvs
      · exact hmem p h2

theorem collate_keys_keys {K V : Type} [DecidableEq K] (extras : List (List (K × V))) :
    ∀ (ks : List K) (r : List (K × List V)),
      collate_keys extras ks = some r → r.map Prod.fst = ks := by
  intro ks
  induction ks with
  | nil =>
    intro r h
    have : r = [] := by simpa [collate_keys] using h.symm
    simp [this]
  | cons k ks ih =>
    intro r h
    unfold collate_keys at h
    cases hg : getEach extras k with
    | none => rw [hg] at h; simp at h
    | some vs =>
      cases hc : collate_keys extras ks with
      | none => rw [hg, hc] at h; simp at h
      | some r2 =>
        rw [hg, hc] at h
        have : r = (k, vs) :: r2 := by simpa using h.symm
        simp [this, ih r2 hc]

theorem collate_keys_entries {K V : Type} [DecidableEq K] (extras : List (List (K × V))) :
    ∀ (ks : List K) (r : List (K × List V)),
      collate_keys extras ks = some r → ∀ p ∈ r, getEach extras p.1 = some p.2 := by
  intro ks
  induction ks with
  | nil =>
    intro r h
    have : r = [] := by simpa [collate_keys] using h.symm
    simp [this]
  | cons k ks ih =>
    intro r h
    unfold collate_keys at h
    cases hg : getEach extras k with
    | none => rw [hg] at h; simp at h
    | some vs =>
      cases hc : collate_keys extras ks with
      | none => rw [hg, hc] at h; simp at h
      | some r2 =>
        rw [hg, hc] at h
        have hr : r = (k, vs) :: r2 := by simpa using h.symm
        rw [hr]
        intro p hp
        rcases List.mem_cons.mp hp with h1 | h2
        · rw [h1]
          exact hg
        · exact ih r2 hc p h2

/-! ## Color defaulting in `__init__` -/

/-- Modelled from the spec: `generate_color_mapping(count)` (an external
visualization helper, not among the sources) returns a sequence of `count`
colors. -/
def generate_color_mapping (n : Nat) : List (Nat × Nat × Nat) :=
  (List.range n).map (fun i => (i, i, i))

/-- Python `supplied or default` for an optional list argument: `None` and
the empty list are both falsy and select the default. -/
def pyOrList {C : Type} (supplied : Option (List C)) (dflt : List C) : List C :=
  match supplied with
  | none => dflt
  | some l => if l.isEmpty then dflt else l

/-- `self.edge_colors = edge_colors or generate_color_mapping(len(edge_links))`. -/
def init_edge_colors (edge_colors : Option (List (Nat × Nat × Nat)))
    (edge_links_count : Nat) : List (Nat × Nat × Nat) :=
  pyOrList edge_colors (generate_color_mapping edge_links_count)

/-- `self.keypoint_colors = keypoint_colors or generate_color_mapping(num_joints)`. -/
def init_keypoint_colors (keypoint_colors : Option (List (Nat × Nat × Nat)))
    (num_joints : Nat) : List (Nat × Nat × Nat) :=
  pyOrList keypoint_colors (generate_color_mapping num_joints)

/-! ## Claim theorems -/

/-- C1: when `apply_transforms` reaches a transform `t` with
`additional_samples_count = k > 0` (at position `pre ++ t :: post` in the
list), the `k` freshly loaded auxiliary samples attached to the primary
sample are each in the state obtained by applying exactly
`applied_transforms_so_far` — the count-0 transforms of the processed part,
in order — to the freshly loaded sample, and nothing else.  When everything
before `t` is a count-0 transform (the spec's `T3(count=2)` after `[T1, T2]`
scenario), `applied_transforms_so_far` is exactly the preceding list and
each auxiliary sample has undergone the same transform chain that carried
the primary sample to its state just before `t` runs. -/
theorem C1_auxiliary_prefix_state (α : Type) (len : Nat) (load : Nat → PoseSample α)
    (g : Nat → Nat) (s : PoseSample α) (pre post : List (KeypointTransform α))
    (t : KeypointTransform α)
    (ht : t.additional_samples_count ≠ 0) (hk : t.additional_samples_count ≤ len)
    (hpre : ∀ u ∈ pre, u.additional_samples_count ≤ len) :
    (∃ S : PoseSample α,
      apply_transforms len load g s (pre ++ t :: post)
        = applyLoop len load g
            (t.apply (S.withAdds
              ((drawDistinct g t.additional_samples_count (List.range len)).map
                (fun i => applyChain
                  (pre.filter (fun u => u.additional_samples_count == 0)) (load i)))))
            (pre.filter (fun u => u.additional_samples_count == 0)) post)
    ∧ ((∀ u ∈ pre, u.additional_samples_count = 0) →
        apply_transforms len load g s (pre ++ t :: post)
          = applyLoop len load g
              (t.apply ((applyChain pre s).withAdds
                ((drawDistinct g t.additional_samples_count (List.range len)).map
                  (fun i => applyChain pre (load i)))))
              pre post) := by
  have hr : random_sample g len t.additional_samples_count
      = .ok (drawDistinct g t.additional_samples_count (List.range len)) := by
    simp [random_sample, hk]
  constructor
  · have hfil : ∀ u ∈ pre.filter (fun u => u.additional_samples_count == 0),
        u.additional_samples_count = 0 := by
      intro u hu
      have h2 := (List.mem_filter.mp hu).2
      simpa using h2
    obtain ⟨S, hS⟩ := applyLoop_prefix len load g pre s [] (by simp) hpre
    refine ⟨S, ?_⟩
    have he0 := applyEach_all_zero len load g _ hfil
      ((drawDistinct g t.additional_samples_count (List.range len)).map load)
    have hmm : ((drawDistinct g t.additional_samples_count (List.range len)).map load).map
          (applyChain (pre.filter (fun u => u.additional_samples_count == 0)))
        = (drawDistinct g t.additional_samples_count (List.range len)).map
            (fun i => applyChain
              (pre.filter (fun u => u.additional_samples_count == 0)) (load i)) := by
      rw [List.map_map]
      rfl
    rw [hmm] at he0
    rw [apply_transforms, hS (t :: post), List.nil_append,
      applyLoop_cons_pos len load g S _ post t _ _ ht hr he0]
  · intro hpre0
    have he0 := applyEach_all_zero len load g pre hpre0
      ((drawDistinct g t.additional_samples_count (List.range len)).map load)
    have hmm : ((drawDistinct g t.additional_samples_count (List.range len)).map load).map
          (applyChain pre)
        = (drawDistinct g t.additional_samples_count (List.range len)).map
            (fun i => applyChain pre (load i)) := by
      rw [List.map_map]
      rfl
    rw [hmm] at he0
    rw [apply_transforms, applyLoop_append_zero len load g pre hpre0 s [] (t :: post),
      List.nil_append, applyLoop_cons_pos len load g _ pre post t _ _ ht hr he0]

/-- A count-0 transform used by concrete pipeline instances. -/
def sampleTransformA : KeypointTransform Nat :=
  ⟨0, fun s => PoseSample.mk (s.data + 1) s.adds⟩

/-- A combining transform requesting two auxiliary samples. -/
def sampleTransformB : KeypointTransform Nat :=
  ⟨2, fun s => PoseSample.mk s.data s.adds⟩

/-- A combining transform requesting six auxiliary samples. -/
def sampleTransformC : KeypointTransform Nat :=
  ⟨6, fun s => PoseSample.mk s.data s.adds⟩

theorem C1_witness :
    apply_transforms 3 (fun i => PoseSample.mk i []) (fun _ => 0) (PoseSample.mk 7 [])
        ([sampleTransformA] ++ sampleTransformB :: [])
      = applyLoop 3 (fun i => PoseSample.mk i []) (fun _ => 0)
          (sampleTransformB.apply
            ((applyChain [sampleTransformA] (PoseSample.mk 7 [])).withAdds
              ((drawDistinct (fun _ => 0) sampleTransformB.additional_samples_count
                  (List.range 3)).map
                (fun i => applyChain [sampleTransformA] (PoseSample.mk i [])))))
          [sampleTransformA] [] :=
  (C1_auxiliary_prefix_state Nat 3 (fun i => PoseSample.mk i []) (fun _ => 0)
      (PoseSample.mk 7 []) [sampleTransformA] [] sampleTransformB
      (by decide) (by decide)
      (by
        intro u hu
        rw [List.mem_singleton.mp hu]
        decide)).2
    (by
      intro u hu
      rw [List.mem_singleton.mp hu]
      decide)

/-- C4: `random.sample(range(len), k)` fails with the insufficiency error
when `k > len` — and so does the whole of `apply_transforms` when a reached
transform requests that many auxiliary samples — with no wrap-around or
repetition: when `k ≤ len` the drawn indices are pairwise distinct, there
are exactly `k` of them, and they come from the full range `[0, len)`
(any index, including the current one, can be drawn). -/
theorem C4_insufficient_samples (α : Type) (len k : Nat) (g : Nat → Nat) :
    (len < k → random_sample g len k = .error "Sample larger than population or is negative")
    ∧ (k ≤ len → ∃ l, random_sample g len k = .ok l
        ∧ l.length = k ∧ l.Nodup ∧ ∀ i ∈ l, i < len)
    ∧ (∀ j, j < len → 1 ≤ k → k ≤ len →
        ∃ l, random_sample (fun _ => j) len k = .ok l ∧ j ∈ l)
    ∧ (∀ (load : Nat → PoseSample α) (s : PoseSample α)
        (pre post : List (KeypointTransform α)) (t : KeypointTransform α),
        (∀ u ∈ pre, u.additional_samples_count = 0) → t.additional_samples_count = k →
        len < k →
        apply_transforms len load g s (pre ++ t :: post)
          = .error "Sample larger than population or is negative") := by
  refine ⟨(random_sample_spec g len k).1, (random_sample_spec g len k).2, ?_, ?_⟩
  · intro j hj hk1 hklen
    refine ⟨drawDistinct (fun _ => j) k (List.range len), by simp [random_sample, hklen], ?_⟩
    cases k with
    | zero => omega
    | succ k2 =>
      have hne : List.range len ≠ [] := by
        have : 0 < len := by omega
        simp [List.range_eq_nil]
        omega
      rw [drawDistinct_step (fun _ => j) k2 (List.range len) hne]
      have hhead : (List.range len).getD (j % (List.range len).length) 0 = j := by
        rw [List.length_range, Nat.mod_eq_of_lt hj]
        simp [List.getD, hj]
      rw [hhead]
      exact List.mem_cons_self _ _
  · intro load s pre post t hpre0 htk hlen
    have ht : t.additional_samples_count ≠ 0 := by omega
    have hr : random_sample g len t.additional_samples_count
        = .error "Sample larger than population or is negative" := by
      rw [htk]
      exact (random_sample_spec g len k).1 hlen
    rw [apply_transforms, applyLoop_append_zero len load g pre hpre0 s [] (t :: post),
      List.nil_append, applyLoop_cons_err len load g _ pre post t _ ht hr]

theorem C4_witness :
    random_sample (fun _ => 0) 5 6 = .error "Sample larger than population or is negative"
      ∧ apply_transforms 5 (fun i => PoseSample.mk i []) (fun _ => 0) (PoseSample.mk 0 [])
          ([] ++ sampleTransformC :: [])
          = .error "Sample larger than population or is negative" :=
  ⟨(C4_insufficient_samples Nat 5 6 (fun _ => 0)).1 (by decide),
    (C4_insufficient_samples Nat 5 6 (fun _ => 0)).2.2.2
      (fun i => PoseSample.mk i []) (PoseSample.mk 0 []) [] [] sampleTransformC
      (by intro u hu; simp at hu) (by decide) (by decide)⟩

/-- C8: the pipeline terminates.  (1) Whenever every transform's
auxiliary-sample request fits in the dataset, `apply_transforms` runs to
completion and returns a sample.  (2) The recursive processing of auxiliary
samples — `applyEach` over the `applied_transforms_so_far` accumulator,
which by construction contains only count-0 transforms — is a plain fold of
those transforms: it draws no indices and loads no further auxiliary
samples, so recursion never goes beyond depth 1 relative to the combining
transform's own invocation.  (3) The recursively applied list is strictly
shorter than the whole transform list. -/
theorem C8_termination (α : Type) (len : Nat) (load : Nat → PoseSample α) (g : Nat → Nat) :
    (∀ (ts : List (KeypointTransform α)) (s : PoseSample α),
        (∀ u ∈ ts, u.additional_samples_count ≤ len) →
        ∃ out, apply_transforms len load g s ts = .ok out)
    ∧ (∀ (applied : List (KeypointTransform α)) (samples : List (PoseSample α)),
        (∀ u ∈ applied, u.additional_samples_count = 0) →
        applyEach len load g samples applied = .ok (samples.map (applyChain applied)))
    ∧ (∀ (pre post : List (KeypointTransform α)) (t : KeypointTransform α),
        (pre.filter (fun u => u.additional_samples_count == 0)).length
          < (pre ++ t :: post).length) := by
  refine ⟨?_, ?_, ?_⟩
  · intro ts s hts
    rw [apply_transforms]
    exact applyLoop_ok len load g ts s [] hts (by simp)
  · intro applied samples hap
    exact applyEach_all_zero len load g applied hap samples
  · intro pre post t
    have h1 := List.length_filter_le (fun u => u.additional_samples_count == 0) pre
    simp only [List.length_append, List.length_cons]
    omega

theorem C8_witness :
    ∃ out, apply_transforms 3 (fun i => PoseSample.mk i []) (fun _ => 0)
        (PoseSample.mk 0 []) [sampleTransformA, sampleTransformB] = Except.ok out :=
  (C8_termination Nat 3 (fun i => PoseSample.mk i []) (fun _ => 0)).1
    [sampleTransformA, sampleTransformB] (PoseSample.mk 0 [])
    (by
      intro u hu
      simp only [List.mem_cons, List.mem_singleton] at hu
      rcases hu with rfl | rfl | h
      · decide
      · decide
      · simp at h)

/-- C2: with threshold `t > 0`, an instance is kept iff it passes the
presence test and its area `a` satisfies `a > t` strictly, where `a` is the
corresponding entry of the sample's `areas` field taken verbatim when that
field is present and `(max x - min x) * (max y - min y)` over all of the
instance's joints otherwise (coordinates are untouched by the visibility
correction, so the derived area ignores visibility); with `t = 0` the output
is exactly the presence-filtered instances — no instance is removed by
area. -/
theorem C2_area_rule (s : KSample) (t : ℚ)
    (hlen : ∀ as, s.areas = some as → as.length = s.joints.length) :
    (0 < t →
      (filter_joints t s).joints
        = (((markedJoints s).zip (instanceAreas s)).filter
            (fun r => hasVisibleJoint r.1 && decide (t < r.2))).map Prod.fst)
    ∧ (t = 0 →
      (filter_joints t s).joints = (markedJoints s).filter hasVisibleJoint)
    ∧ (instanceAreas s = match s.areas with
        | some as => as
        | none => (markedJoints s).map compute_area)
    ∧ (∀ rows cols inst, compute_area (markInstance rows cols inst) = compute_area inst)
    ∧ (∀ inst, compute_area inst
        = (listMaxQ (inst.map Joint.x) - listMinQ (inst.map Joint.x))
          * (listMaxQ (inst.map Joint.y) - listMinQ (inst.map Joint.y))) := by
  have hlen2 : (markedJoints s).length = (instanceAreas s).length := by
    unfold instanceAreas
    cases h : s.areas with
    | none => simp
    | some as => rw [markedJoints_length, hlen as h]
  refine ⟨?_, ?_, ?_, compute_area_markInstance, fun _ => rfl⟩
  case refine_3 =>
    unfold instanceAreas
    cases s.areas <;> rfl
  · intro ht
    rw [filter_joints_joints, filterKeep_pos t s ht]
    exact applyMask_zipWith_and_eq_filter hasVisibleJoint (fun a => decide (t < a))
      (markedJoints s) (instanceAreas s) hlen2
  · intro ht
    rw [filter_joints_joints, filterKeep_nonpos t s (by rw [ht]; exact lt_irrefl 0),
      applyMask_map_self]

/-- Scenario-B style sample: two instances whose derived areas are 64 and
400, channel-last 100x100 image, no stored `areas`. -/
def wSampleB : KSample :=
  { image := ⟨false, 100, 100, 3⟩
    joints := [[⟨0, 0, 2⟩, ⟨8, 8, 2⟩], [⟨0, 0, 2⟩, ⟨20, 20, 2⟩]]
    is_crowd := [false, false]
    bboxes := none
    areas := none }

theorem C2_witness :
    (filter_joints 100 wSampleB).joints
      = (((markedJoints wSampleB).zip (instanceAreas wSampleB)).filter
          (fun r => hasVisibleJoint r.1 && decide ((100 : ℚ) < r.2))).map Prod.fst :=
  (C2_area_rule wSampleB 100 (by intro as h; simp [wSampleB] at h)).1 (by decide)

/-- C5: `filter_joints` reads the frame as `(rows, cols) = shape[1], shape[2]`
for a channel-first tensor and `shape[0], shape[1]` otherwise, and before the
presence test it forces visibility 0 on every joint with `x < 0`, `y < 0`,
`x ≥ cols` or `y ≥ rows`, regardless of the original visibility, leaving
in-bounds joints untouched; consequently the presence test counts a joint
only if it was labeled visible and lies in bounds, and every out-of-bounds
joint in the filtered output has visibility 0. -/
theorem C5_out_of_bounds (t : ℚ) (s : KSample) (rows cols : Nat) (j : Joint)
    (inst : List Joint) :
    (outsideImage rows cols j
      = (decide (j.x < 0) || decide (j.y < 0) || decide ((cols : ℚ) ≤ j.x)
          || decide ((rows : ℚ) ≤ j.y)))
    ∧ ((markJoint rows cols j).x = j.x ∧ (markJoint rows cols j).y = j.y)
    ∧ (outsideImage rows cols j = true → (markJoint rows cols j).v = 0)
    ∧ (outsideImage rows cols j = false → markJoint rows cols j = j)
    ∧ (s.image.isTensor = true → frameDims s.image = (s.image.dim1, s.image.dim2))
    ∧ (s.image.isTensor = false → frameDims s.image = (s.image.dim0, s.image.dim1))
    ∧ (hasVisibleJoint (markInstance rows cols inst)
        = inst.any (fun j2 => decide (0 < j2.v) && !(outsideImage rows cols j2)))
    ∧ (∀ inst2 ∈ (filter_joints t s).joints, ∀ j2 ∈ inst2,
        outsideImage (frameDims s.image).1 (frameDims s.image).2 j2 = true → j2.v = 0) := by
  refine ⟨rfl, markJoint_coords rows cols j, ?_, ?_, ?_, ?_,
    hasVisibleJoint_markInstance rows cols inst, ?_⟩
  · intro h
    simp [markJoint, h]
  · intro h
    simp [markJoint, h]
  · intro h
    simp [frameDims, h]
  · intro h
    simp [frameDims, h]
  · intro inst2 h2 j2 hj2 hout
    have h3 : inst2 ∈ markedJoints s := by
      rw [filter_joints_joints] at h2
      exact mem_applyMask _ _ _ h2
    unfold markedJoints markJoints at h3
    rcases List.mem_map.mp h3 with ⟨inst0, _, hinst0⟩
    rw [← hinst0] at hj2
    unfold markInstance at hj2
    rcases List.mem_map.mp hj2 with ⟨j0, _, hj0⟩
    rw [← hj0] at hout ⊢
    rw [outsideImage_markJoint] at hout
    simp [markJoint, hout]

/-- Scenario-A style sample: one instance, all joints at (150, 150) in a
100x100 channel-last image. -/
def wSampleA : KSample :=
  { image := ⟨false, 100, 100, 3⟩
    joints := [[⟨150, 150, 2⟩, ⟨150, 150, 2⟩, ⟨150, 150, 2⟩]]
    is_crowd := [false]
    bboxes := none
    areas := none }

theorem C5_witness : (markJoint 100 100 (⟨150, 150, 2⟩ : Joint)).v = 0 :=
  (C5_out_of_bounds 0 wSampleA 100 100 ⟨150, 150, 2⟩ []).2.2.1 (by decide)

/-- C6: after `filter_joints`, every surviving instance has at least one
joint with visibility greater than zero, and when no instance survives the
result is a well-formed sample whose per-instance arrays are all empty (not
an error). -/
theorem C6_survivor_invariant (t : ℚ) (s : KSample)
    (hc : s.is_crowd.length = s.joints.length)
    (ha : ∀ as, s.areas = some as → as.length = s.joints.length)
    (hb : ∀ bs, s.bboxes = some bs → bs.length = s.joints.length) :
    (∀ inst ∈ (filter_joints t s).joints, hasVisibleJoint inst = true)
    ∧ ((filter_joints t s).joints = [] →
        (filter_joints t s).is_crowd = []
        ∧ (∀ bs, (filter_joints t s).bboxes = some bs → bs = [])
        ∧ (∀ as, (filter_joints t s).areas = some as → as = [])) := by
  constructor
  · intro inst hinst
    rw [filter_joints_joints] at hinst
    by_cases ht : 0 < t
    · rw [filterKeep_pos t s ht] at hinst
      exact mem_applyMask_zipWith_and hasVisibleJoint (markedJoints s) _ inst hinst
    · rw [filterKeep_nonpos t s ht, applyMask_map_self] at hinst
      exact (List.mem_filter.mp hinst).2
  · intro h0
    rw [filter_joints_joints] at h0
    have hnil : ∀ (γ : Type) (l : List γ), l.length = s.joints.length →
        applyMask (filterKeep t s) l = [] := by
      intro γ l hl
      exact applyMask_eq_nil_congr (filterKeep t s) (markedJoints s) l
        (by rw [markedJoints_length, hl]) h0
    refine ⟨?_, ?_, ?_⟩
    · rw [filter_joints_is_crowd]
      exact hnil Bool s.is_crowd hc
    · intro bs hbs
      rw [filter_joints_bboxes] at hbs
      cases hsb : s.bboxes with
      | none => rw [hsb] at hbs; simp at hbs
      | some bs0 =>
        rw [hsb] at hbs
        have : bs = applyMask (filterKeep t s) bs0 := by simpa using hbs.symm
        rw [this]
        exact hnil _ bs0 (hb bs0 hsb)
    · intro as has
      rw [filter_joints_areas] at has
      cases hsa : s.areas with
      | none => rw [hsa] at has; simp at has
      | some as0 =>
        rw [hsa] at has
        have : as = applyMask (filterKeep t s) as0 := by simpa using has.symm
        rw [this]
        exact hnil _ as0 (ha as0 hsa)

theorem C6_witness :
    (filter_joints 0 wSampleA).is_crowd = []
      ∧ ∀ inst ∈ (filter_joints 0 wSampleA).joints, hasVisibleJoint inst = true :=
  ⟨((C6_survivor_invariant 0 wSampleA (by decide) (by intro as h; simp [wSampleA] at h)
      (by intro bs h; simp [wSampleA] at h)).2 (by decide)).1,
    (C6_survivor_invariant 0 wSampleA (by decide) (by intro as h; simp [wSampleA] at h)
      (by intro bs h; simp [wSampleA] at h)).1⟩

/-- C3: `filter_joints` is idempotent: on a sample whose per-instance arrays
agree in length with `joints` (the Sample shape invariant), a second
application changes nothing — every survivor is already marked, passes the
presence test, and passes the area test against its own (pruned) area
entry or its recomputed area. -/
theorem C3_filter_idempotent (t : ℚ) (s : KSample)
    (hc : s.is_crowd.length = s.joints.length)
    (ha : ∀ as, s.areas = some as → as.length = s.joints.length)
    (hb : ∀ bs, s.bboxes = some bs → bs.length = s.joints.length) :
    filter_joints t (filter_joints t s) = filter_joints t s := by
  have hMF : markedJoints (filter_joints t s)
      = applyMask (filterKeep t s) (markedJoints s) := by
    rw [markedJoints_filter_joints, filter_joints_joints]
  have hkeep : filterKeep t (filter_joints t s)
      = List.replicate (applyMask (filterKeep t s) (markedJoints s)).length true := by
    by_cases ht : 0 < t
    · cases hsa : s.areas with
      | none =>
        have hIA : instanceAreas s = (markedJoints s).map compute_area := by
          unfold instanceAreas
          rw [hsa]
        have hFA : (filter_joints t s).areas = none := by
          rw [filter_joints_areas, hsa]
          rfl
        have hIAF : instanceAreas (filter_joints t s)
            = (markedJoints (filter_joints t s)).map compute_area := by
          unfold instanceAreas
          rw [hFA]
        have hkeepdef : filterKeep t s
            = (markedJoints s).map
                (fun inst => hasVisibleJoint inst && decide (t < compute_area inst)) := by
          rw [filterKeep_pos t s ht, hIA, zipWith_and_map_map]
        rw [filterKeep_pos t (filter_joints t s) ht, hIAF, hMF, zipWith_and_map_map,
          hkeepdef, applyMask_map_self]
        exact map_eq_replicate_true _ _ (fun x hx => (List.mem_filter.mp hx).2)
      | some as =>
        have hlen3 : (markedJoints s).length = as.length := by
          rw [markedJoints_length]
          exact (ha as hsa).symm
        have hIA : instanceAreas s = as := by
          unfold instanceAreas
          rw [hsa]
        have hFA : (filter_joints t s).areas = some (applyMask (filterKeep t s) as) := by
          rw [filter_joints_areas, hsa]
          rfl
        have hIAF : instanceAreas (filter_joints t s) = applyMask (filterKeep t s) as := by
          unfold instanceAreas
          rw [hFA]
        rw [filterKeep_pos t (filter_joints t s) ht, hIAF, hMF, filterKeep_pos t s ht, hIA]
        exact zipWith_and_applyMask_true hasVisibleJoint (fun a => decide (t < a))
          (markedJoints s) as hlen3
    · rw [filterKeep_nonpos t (filter_joints t s) ht, hMF, filterKeep_nonpos t s ht,
        applyMask_map_self]
      exact map_eq_replicate_true _ _ (fun x hx => (List.mem_filter.mp hx).2)
  apply ksample_eq
  · rfl
  · rw [filter_joints_joints t (filter_joints t s), hkeep, hMF,
      applyMask_replicate_true _ _ (le_refl _), filter_joints_joints t s]
  · rw [filter_joints_is_crowd t (filter_joints t s), hkeep, filter_joints_is_crowd t s,
      applyMask_replicate_true _ _
        (le_of_eq (applyMask_length_congr (filterKeep t s) s.is_crowd (markedJoints s)
          (by rw [markedJoints_length]; exact hc)))]
  · rw [filter_joints_bboxes t (filter_joints t s), filter_joints_bboxes t s]
    cases hsb : s.bboxes with
    | none => rfl
    | some bs =>
      simp only [Option.map_some']
      rw [hkeep, applyMask_replicate_true _ _
        (le_of_eq (applyMask_length_congr (filterKeep t s) bs (markedJoints s)
          (by rw [markedJoints_length]; exact hb bs hsb)))]
  · rw [filter_joints_areas t (filter_joints t s), filter_joints_areas t s]
    cases hsa : s.areas with
    | none => rfl
    | some as =>
      simp only [Option.map_some']
      rw [hkeep, applyMask_replicate_true _ _
        (le_of_eq (applyMask_length_congr (filterKeep t s) as (markedJoints s)
          (by rw [markedJoints_length]; exact ha as hsa)))]

/-- A well-formed sample exercising both the stored-areas path and the
out-of-bounds correction (channel-first image, rows = cols = 100). -/
def wSampleC : KSample :=
  { image := ⟨true, 3, 100, 100⟩
    joints := [[⟨0, 0, 2⟩, ⟨8, 8, 2⟩], [⟨0, 0, 0⟩, ⟨20, 20, 0⟩], [⟨-5, 3, 2⟩, ⟨200, 3, 1⟩]]
    is_crowd := [false, true, false]
    bboxes := some [(0, 0, 8, 8), (0, 0, 20, 20), (0, 0, 5, 5)]
    areas := some [150, 200, 300] }

theorem C3_witness :
    filter_joints 100 (filter_joints 100 wSampleC) = filter_joints 100 wSampleC :=
  C3_filter_idempotent 100 wSampleC (by decide)
    (by intro as h; cases h; decide) (by intro bs h; cases h; decide)

theorem forall₂_mem_left {γ δ : Type} {R : γ → δ → Prop} :
    ∀ {l1 : List γ} {l2 : List δ}, List.Forall₂ R l1 l2 → ∀ x ∈ l1, ∃ y, R x y := by
  intro l1 l2 h
  induction h with
  | nil => intro x hx; simp at hx
  | cons h1 _ ih =>
    intro x hx
    rcases List.mem_cons.mp hx with h3 | h4
    · exact ⟨_, h3 ▸ h1⟩
    · exact ih x h4

/-- C7: for a non-empty batch whose extras dicts all carry (at least) the
keys of the first element's dict — in particular when all dicts carry the
same key set — the transposed extras dict exists, has exactly the first
element's keys, and maps each key to the ordered list of the per-sample
values: sample order preserved, one entry per batch element, no stacking
(each value, e.g. `gt_joints`, is passed through unchanged, keeping its own
instance count).  The extras component of the full collate is exactly this
transposition. -/
theorem C7_collate_extras_transpose (K V : Type) [DecidableEq K]
    (d0 : List (K × V)) (ds : List (List (K × V)))
    (hkeys : ∀ d ∈ d0 :: ds, ∀ k ∈ d0.map Prod.fst, (dictGet d k).isSome = true) :
    (∃ r, collate_extras (d0 :: ds) = some r
      ∧ r.map Prod.fst = d0.map Prod.fst
      ∧ ∀ k ∈ d0.map Prod.fst, ∃ vs, dictGet r k = some vs
          ∧ vs.length = (d0 :: ds).length
          ∧ List.Forall₂ (fun d v => dictGet d k = some v) (d0 :: ds) vs)
    ∧ (∀ (I T I2 T2 : Type) (stackI : List I → Option I2) (stackT : List T → Option T2)
        (batch : List (I × T × List (K × V))) (im : I2) (tg : T2) (e : List (K × List V)),
        keypointsCollate stackI stackT batch = some (im, tg, e) →
        collate_extras (batch.map (fun b => b.2.2)) = some e) := by
  constructor
  · have hex : ∀ k ∈ d0.map Prod.fst, ∃ vs, getEach (d0 :: ds) k = some vs := by
      intro k hk
      exact getEach_isSome (d0 :: ds) k (fun d hd => hkeys d hd k hk)
    obtain ⟨r, hr, hkeys2, hentries⟩ := collate_keys_some (d0 :: ds) (d0.map Prod.fst) hex
    refine ⟨r, hr, hkeys2, ?_⟩
    intro k hk
    have hks : k ∈ r.map Prod.fst := by rw [hkeys2]; exact hk
    have hsome := dictGet_isSome_of_mem_keys r k hks
    cases hd : dictGet r k with
    | none => rw [hd] at hsome; simp at hsome
    | some vs =>
      have hmem := dictGet_some_mem r k vs hd
      have hge : getEach (d0 :: ds) k = some vs := hentries (k, vs) hmem
      have hfa := (getEach_forall₂ (d0 :: ds) k vs).mp hge
      exact ⟨vs, rfl, (List.Forall₂.length_eq hfa).symm, hfa⟩
  · intro I T I2 T2 stackI stackT batch im tg e h
    unfold keypointsCollate at h
    cases hce : collate_extras (batch.map (fun b => b.2.2)) with
    | none => rw [hce] at h; simp at h
    | some e0 =>
      rw [hce] at h
      cases hsi : stackI (batch.map (fun b => b.1)) with
      | none => rw [hsi] at h; simp at h
      | some im0 =>
        cases hst : stackT (batch.map (fun b => b.2.1)) with
        | none => rw [hsi, hst] at h; simp at h
        | some tg0 =>
          rw [hsi, hst] at h
          have h2 : im0 = im ∧ tg0 = tg ∧ e0 = e := by
            have h3 : (im0, tg0, e0) = (im, tg, e) := by simpa using h
            simpa [Prod.ext_iff] using h3
          exact congrArg some h2.2.2

theorem C7_witness :
    (collate_extras [[(0, [1, 2]), (1, [5])], [(0, [7]), (1, [8, 9])]]
        : Option (List (Nat × List (List Nat)))).isSome = true := by
  obtain ⟨r, hr, -, -⟩ :=
    (C7_collate_extras_transpose Nat (List Nat) [(0, [1, 2]), (1, [5])] [[(0, [7]), (1, [8, 9])]]
      (by decide)).1
  rw [hr]
  rfl

/-- C10: the transposed extras dict takes its key set exactly from the first
batch element: a key present only in later elements does not appear in the
result, and a key of the first element missing from any later element makes
the whole transposition fail (a lookup error) instead of producing a partial
batch. -/
theorem C10_collate_keyset (K V : Type) [DecidableEq K]
    (d0 : List (K × V)) (ds : List (List (K × V))) :
    (∀ r, collate_extras (d0 :: ds) = some r →
        r.map Prod.fst = d0.map Prod.fst
        ∧ ∀ k, k ∉ d0.map Prod.fst → dictGet r k = none)
    ∧ (∀ k, k ∈ d0.map Prod.fst → ∀ d ∈ d0 :: ds, dictGet d k = none →
        collate_extras (d0 :: ds) = none) := by
  constructor
  · intro r hr
    have hkeys : r.map Prod.fst = d0.map Prod.fst := collate_keys_keys (d0 :: ds) _ r hr
    refine ⟨hkeys, ?_⟩
    intro k hk
    rw [dictGet_eq_none_iff, hkeys]
    exact hk
  · intro k hk d hd hnone
    cases hce : collate_extras (d0 :: ds) with
    | none => rfl
    | some r =>
      exfalso
      have hkeys : r.map Prod.fst = d0.map Prod.fst := collate_keys_keys (d0 :: ds) _ r hce
      have hks : k ∈ r.map Prod.fst := by rw [hkeys]; exact hk
      have hsome := dictGet_isSome_of_mem_keys r k hks
      cases hdg : dictGet r k with
      | none => rw [hdg] at hsome; simp at hsome
      | some vs =>
        have hmem := dictGet_some_mem r k vs hdg
        have hge : getEach (d0 :: ds) k = some vs :=
          collate_keys_entries (d0 :: ds) _ r hce (k, vs) hmem
        have hfa := (getEach_forall₂ (d0 :: ds) k vs).mp hge
        obtain ⟨v, hv⟩ := forall₂_mem_left hfa d hd
        rw [hnone] at hv
        exact Option.noConfusion hv

theorem C10_witness :
    (collate_extras [[(0, [1])], [(1, [2])]] : Option (List (Nat × List (List Nat)))) = none :=
  (C10_collate_keyset Nat (List Nat) [(0, [1])] [[(1, [2])]]).2 0 (by decide)
    [(1, [2])] (by decide) (by decide)

/-- C9 counterexample: a caller explicitly supplying an empty edge-color
sequence does not get it stored — Python's `or` treats the empty list as
falsy, so the generated default is stored instead. -/
theorem C9_counterexample :
    init_edge_colors (some []) 2 ≠ []
      ∧ init_edge_colors (some []) 2 = generate_color_mapping 2
      ∧ init_keypoint_colors (some []) 17 ≠ []
      ∧ init_keypoint_colors (some []) 17 = generate_color_mapping 17 := by
  refine ⟨by decide, rfl, by decide, rfl⟩

/-- C9 amended: the default `generate_color_mapping` result is stored when
the caller-supplied edge (resp. keypoint) colors argument is `None` or an
explicitly supplied empty sequence (both falsy under Python `or`); a
supplied non-empty sequence is stored as-is. -/
theorem C9_amended (oc : Option (List (Nat × Nat × Nat))) (nLinks nJoints : Nat) :
    (init_edge_colors none nLinks = generate_color_mapping nLinks)
    ∧ (init_edge_colors (some []) nLinks = generate_color_mapping nLinks)
    ∧ (∀ l, oc = some l → l ≠ [] → init_edge_colors oc nLinks = l)
    ∧ (init_keypoint_colors none nJoints = generate_color_mapping nJoints)
    ∧ (init_keypoint_colors (some []) nJoints = generate_color_mapping nJoints)
    ∧ (∀ l, oc = some l → l ≠ [] → init_keypoint_colors oc nJoints = l) := by
  refine ⟨rfl, rfl, ?_, rfl, rfl, ?_⟩
  · intro l hl hne
    rw [hl]
    simp [init_edge_colors, pyOrList, List.isEmpty_iff, hne]
  · intro l hl hne
    rw [hl]
    simp [init_keypoint_colors, pyOrList, List.isEmpty_iff, hne]

theorem C9_amended_witness :
    init_edge_colors (some [(5, 5, 5)]) 3 = [(5, 5, 5)] :=
  (C9_amended (some [(5, 5, 5)]) 3 3).2.2.1 [(5, 5, 5)] rfl (by decide)

end BaseKeypoints
